import Mathlib

/-!
Verification of the cache lifecycle engine of the KeepAlive component
(src/packages/core/src/components/KeepAlive/index.tsx).

The store is a list of cache nodes.  The activation controller, the
expiration evaluator and the lifecycle API (`refresh`, `destroy`,
`destroyAll`, `destroyOther`) are embedded as pure functions on that
list; the deferred (macro-task) mutations of the destroy family are
modelled by the pure function each one eventually applies to the
latest store state.  The opaque React payload (`ele`) is a type
parameter `α`.
-/

namespace KeepAlive

/-- `CacheNode` from the source: one cache entry.  `ele` is the opaque
content payload. -/
structure CacheNode (α : Type) where
  cacheKey : String
  ele : α
  lastActiveTime : Nat
  renderCount : Nat
deriving DecidableEq

/-- The `match` field of a `MaxAliveConfig` rule: an exact string or a
pattern; `RegExp.test` is modelled as an opaque boolean predicate on
strings. -/
inductive MatchPat where
  | str (s : String)
  | pat (test : String → Bool)

/-- `MaxAliveConfig` from the source: `{ match, expire }` (`expire` in
seconds).  The field `match` is a Lean keyword, hence `match_`. -/
structure MaxAliveConfig where
  match_ : MatchPat
  expire : Nat

/-- The `maxAliveTime` prop: `number | MaxAliveConfig[]`. -/
inductive MaxAliveTime where
  | num (d : Nat)
  | rules (rs : List MaxAliveConfig)

/-- `isRegExp(item.match) ? item.match.test(activeCacheKey) :
item.match === activeCacheKey` (index.tsx line 142). -/
def matchTest (m : MatchPat) (k : String) : Bool :=
  match m with
  | .str s => s == k
  | .pat t => t k

/-- The expiration evaluation of the update branch (index.tsx lines
138-150), as a function of the entry's previous `lastActiveTime`, the
captured `now` (`lastActiveTime` local in the source), the
`maxAliveTime` prop and the active cache key.  The outer
`if (maxAliveTime)` truthiness test makes the scalar `0` (the default)
skip the whole block, while an array — even an empty one — is always
truthy in JavaScript and enters the `isArr` branch. -/
def shouldExpire (prev now : Nat) (maxAliveTime : MaxAliveTime) (activeCacheKey : String) : Bool :=
  match maxAliveTime with
  | .num d =>
    if d = 0 then false
    else decide (prev + d * 1000 < now)
  | .rules rs =>
    match rs.find? (fun item => matchTest item.match_ activeCacheKey) with
    | some config => decide (prev + config.expire * 1000 < now)
    | none => false

/-- The eviction step of the insert branch (index.tsx lines 162-167):
`reduce` picks `prev.lastActiveTime < cur.lastActiveTime ? prev : cur`
over the whole store, and `splice(indexOf(node), 1)` removes the first
occurrence of the picked node.  `reduce` without an initial value
starts from the first element, so the store is split head/tail. -/
def reduceMinNode {α : Type} (h : CacheNode α) (t : List (CacheNode α)) : CacheNode α :=
  t.foldl (fun prev cur => if prev.lastActiveTime < cur.lastActiveTime then prev else cur) h

/-- `prevCacheNodes.splice(prevCacheNodes.indexOf(node), 1)` where
`node` is the `reduce` result; on the empty store the branch is never
reached (it is guarded by `length > max`). -/
def evictOne {α : Type} [DecidableEq α] (nodes : List (CacheNode α)) : List (CacheNode α) :=
  match nodes with
  | [] => []
  | h :: t => (h :: t).erase (reduceMinNode h t)

/-- The activation controller (index.tsx lines 127-172, the
`useLayoutEffect` body): `find` an entry with the active key; if found,
`map` the store replacing that entry's content and timestamp and
bumping `renderCount` when expiration evaluates true; otherwise evict
when `length > max` and append a fresh entry. -/
def activate {α : Type} [DecidableEq α] (activeCacheKey : String) (children : α) (now : Nat)
    (max : Nat) (maxAliveTime : MaxAliveTime) (prevCacheNodes : List (CacheNode α)) :
    List (CacheNode α) :=
  match prevCacheNodes.find? (fun item => item.cacheKey == activeCacheKey) with
  | some _ =>
    prevCacheNodes.map (fun item =>
      if item.cacheKey == activeCacheKey then
        { item with
          ele := children
          lastActiveTime := now
          renderCount :=
            if shouldExpire item.lastActiveTime now maxAliveTime activeCacheKey then
              item.renderCount + 1
            else item.renderCount }
      else item)
  | none =>
    (if prevCacheNodes.length > max then evictOne prevCacheNodes else prevCacheNodes) ++
      [{ cacheKey := activeCacheKey, ele := children, lastActiveTime := now, renderCount := 0 }]

/-- `refresh` (index.tsx lines 174-187): `targetCacheKey = cacheKey ||
activeCacheKey` (the empty string is falsy), then `map` bumping
`renderCount` of the matching entry. -/
def refresh {α : Type} (cacheKey : Option String) (activeCacheKey : String)
    (cacheNodes : List (CacheNode α)) : List (CacheNode α) :=
  let targetCacheKey := match cacheKey with
    | some k => if k = "" then activeCacheKey else k
    | none => activeCacheKey
  cacheNodes.map (fun item =>
    if item.cacheKey == targetCacheKey then
      { item with renderCount := item.renderCount + 1 }
    else item)

/-- The argument of `destroy`: nothing, a single key, or a key list. -/
inductive DestroyArg where
  | none
  | key (k : String)
  | keys (ks : List String)

/-- `destroy` (index.tsx lines 189-203): `targetCacheKey = cacheKey ||
activeCacheKey` (a string is falsy exactly when empty; an array is
always truthy, even empty), `cacheKeys = isArr ? target : [target]`,
then the deferred mutation filters out every entry whose key is
included in `cacheKeys`. -/
def destroyTargets (arg : DestroyArg) (activeCacheKey : String) : List String :=
  match arg with
  | .none => [activeCacheKey]
  | .key k => if k = "" then [activeCacheKey] else [k]
  | .keys ks => ks

/-- The store transformation the deferred `destroy` mutation applies
when its macro-task runs (index.tsx lines 195-197). -/
def destroy {α : Type} (arg : DestroyArg) (activeCacheKey : String)
    (cacheNodes : List (CacheNode α)) : List (CacheNode α) :=
  cacheNodes.filter (fun item => !(destroyTargets arg activeCacheKey).contains item.cacheKey)

/-- The store transformation the deferred `destroyAll` mutation applies
(index.tsx lines 205-212): the empty store. -/
def destroyAll {α : Type} (_cacheNodes : List (CacheNode α)) : List (CacheNode α) :=
  []

/-- The store transformation the deferred `destroyOther` mutation
applies (index.tsx lines 214-227): keep exactly the entries whose key
equals `targetCacheKey = cacheKey || activeCacheKey`. -/
def destroyOther {α : Type} (cacheKey : Option String) (activeCacheKey : String)
    (cacheNodes : List (CacheNode α)) : List (CacheNode α) :=
  let targetCacheKey := match cacheKey with
    | some k => if k = "" then activeCacheKey else k
    | none => activeCacheKey
  cacheNodes.filter (fun item => item.cacheKey == targetCacheKey)

/-- The keys of a store, in order. -/
def storeKeys {α : Type} (nodes : List (CacheNode α)) : List String :=
  nodes.map (fun item => item.cacheKey)

/-- A sequence of activations: each step supplies an activation key, a
content payload and the captured `Date.now()`. -/
def activateSeq {α : Type} [DecidableEq α] (max : Nat) (maxAliveTime : MaxAliveTime)
    (steps : List (String × α × Nat)) (init : List (CacheNode α)) : List (CacheNode α) :=
  steps.foldl (fun nodes s => activate s.1 s.2.1 s.2.2 max maxAliveTime nodes) init

/-! ### Helper lemmas -/

/-- `find?` over a list whose prefix entirely fails the predicate
returns the first succeeding element. -/
theorem find?_first {β : Type} (p : β → Bool) (l₁ l₂ : List β) (e : β)
    (h₁ : ∀ x ∈ l₁, p x = false) (he : p e = true) :
    (l₁ ++ e :: l₂).find? p = some e := by
  induction l₁ with
  | nil => simp [List.find?_cons, he]
  | cons a t ih =>
    have ha : p a = false := h₁ a (by simp)
    simp only [List.cons_append, List.find?_cons, ha]
    exact ih (fun x hx => h₁ x (by simp [hx]))

theorem shouldExpire_num_zero (p n : Nat) (k : String) :
    shouldExpire p n (.num 0) k = false := by
  simp [shouldExpire]

theorem shouldExpire_num_pos (p n d : Nat) (k : String) (hd : d ≠ 0) :
    shouldExpire p n (.num d) k = decide (p + d * 1000 < n) := by
  simp [shouldExpire, hd]

theorem shouldExpire_rules_first (p n : Nat) (k : String) (rs₁ rs₂ : List MaxAliveConfig)
    (c : MaxAliveConfig) (h₁ : ∀ x ∈ rs₁, matchTest x.match_ k = false)
    (hc : matchTest c.match_ k = true) :
    shouldExpire p n (.rules (rs₁ ++ c :: rs₂)) k = decide (p + c.expire * 1000 < n) := by
  simp only [shouldExpire]
  rw [find?_first (fun item => matchTest item.match_ k) rs₁ rs₂ c h₁ hc]

theorem shouldExpire_rules_none (p n : Nat) (k : String) (rs : List MaxAliveConfig)
    (h : ∀ x ∈ rs, matchTest x.match_ k = false) :
    shouldExpire p n (.rules rs) k = false := by
  simp only [shouldExpire]
  rw [List.find?_eq_none.mpr (by simpa using h)]

/-- A `map` whose function fixes every member of the list is the
identity on that list. -/
theorem map_eq_self {β : Type} (f : β → β) (l : List β) (h : ∀ x ∈ l, f x = x) :
    l.map f = l := by
  induction l with
  | nil => rfl
  | cons a t ih =>
    simp only [List.map_cons, h a (by simp)]
    rw [ih (fun x hx => h x (by simp [hx]))]

/-- In a store with pairwise-distinct keys, filtering for the key of a
member keeps exactly that member. -/
theorem filter_key_unique {α : Type} (k : String) (nodes : List (CacheNode α))
    (hnd : (storeKeys nodes).Nodup) (e : CacheNode α) (he : e ∈ nodes)
    (hek : e.cacheKey = k) :
    nodes.filter (fun item => item.cacheKey == k) = [e] := by
  induction nodes with
  | nil => cases he
  | cons h t ih =>
    simp only [storeKeys, List.map_cons, List.nodup_cons] at hnd
    rcases List.mem_cons.mp he with rfl | het
    · rw [List.filter_cons_of_pos (p := fun item : CacheNode α => item.cacheKey == k)
        (by simp [hek])]
      have ht : t.filter (fun item => item.cacheKey == k) = [] := by
        rw [List.filter_eq_nil_iff]
        intro x hx hxk
        simp only [beq_iff_eq] at hxk
        exact hnd.1 (hek ▸ hxk ▸ List.mem_map_of_mem (fun item => item.cacheKey) hx)
      rw [ht]
    · have hhk : ¬(h.cacheKey == k) = true := by
        simp only [beq_iff_eq]
        intro hh
        exact hnd.1 (hh ▸ hek ▸ List.mem_map_of_mem (fun item => item.cacheKey) het)
      rw [List.filter_cons_of_neg (p := fun item : CacheNode α => item.cacheKey == k) hhk]
      exact ih hnd.2 het

/-- The `reduce` result is one of the store's entries. -/
theorem reduceMinNode_mem {α : Type} (h : CacheNode α) (t : List (CacheNode α)) :
    reduceMinNode h t ∈ h :: t := by
  induction t generalizing h with
  | nil => simp [reduceMinNode]
  | cons c t' ih =>
    have hred : reduceMinNode h (c :: t') =
        reduceMinNode (if h.lastActiveTime < c.lastActiveTime then h else c) t' := rfl
    rw [hred]
    rcases List.mem_cons.mp (ih (if h.lastActiveTime < c.lastActiveTime then h else c)) with
      heq | ht
    · rw [heq]
      split <;> simp
    · simp [ht]

/-- Decomposition of the store around the `reduce` result: it is a
minimum of `lastActiveTime`, and every entry strictly after it has a
strictly larger `lastActiveTime` — the JavaScript ternary
`prev.lastActiveTime < cur.lastActiveTime ? prev : cur` keeps `cur` on
ties, so the reduce settles on the LAST entry attaining the minimum. -/
theorem reduceMinNode_split {α : Type} (h : CacheNode α) (t : List (CacheNode α)) :
    ∃ l₁ l₂, h :: t = l₁ ++ reduceMinNode h t :: l₂ ∧
      (∀ x ∈ h :: t, (reduceMinNode h t).lastActiveTime ≤ x.lastActiveTime) ∧
      (∀ x ∈ l₂, (reduceMinNode h t).lastActiveTime < x.lastActiveTime) := by
  induction t generalizing h with
  | nil => exact ⟨[], [], rfl, by simp [reduceMinNode], by simp⟩
  | cons c t' ih =>
    have hred : reduceMinNode h (c :: t') =
        reduceMinNode (if h.lastActiveTime < c.lastActiveTime then h else c) t' := rfl
    by_cases hc : h.lastActiveTime < c.lastActiveTime
    · obtain ⟨l₁, l₂, hsplit, hmin, hafter⟩ := ih h
      rw [hred, if_pos hc]
      cases l₁ with
      | nil =>
        simp only [List.nil_append] at hsplit
        have hhm : h = reduceMinNode h t' := (List.cons.injEq _ _ _ _).mp hsplit |>.1
        have hl₂ : t' = l₂ := (List.cons.injEq _ _ _ _).mp hsplit |>.2
        refine ⟨[], c :: t', by rw [List.nil_append, ← hhm], ?_, ?_⟩
        · intro x hx
          rcases List.mem_cons.mp hx with rfl | hx'
          · rw [← hhm]
          · rcases List.mem_cons.mp hx' with rfl | hx''
            · rw [← hhm]; exact Nat.le_of_lt hc
            · exact hmin x (by simp [hx''])
        · intro x hx
          rcases List.mem_cons.mp hx with rfl | hx'
          · rw [← hhm]; exact hc
          · exact hafter x (hl₂ ▸ hx')
      | cons a l₁' =>
        simp only [List.cons_append] at hsplit
        have hha : h = a := (List.cons.injEq _ _ _ _).mp hsplit |>.1
        have ht' : t' = l₁' ++ reduceMinNode h t' :: l₂ :=
          (List.cons.injEq _ _ _ _).mp hsplit |>.2
        refine ⟨h :: c :: l₁', l₂, by rw [List.cons_append, List.cons_append, ← ht'], ?_, hafter⟩
        intro x hx
        rcases List.mem_cons.mp hx with rfl | hx'
        · exact hmin x (by simp)
        · rcases List.mem_cons.mp hx' with rfl | hx''
          · exact Nat.le_trans (hmin h (by simp)) (Nat.le_of_lt hc)
          · exact hmin x (by simp [hx''])
    · obtain ⟨l₁, l₂, hsplit, hmin, hafter⟩ := ih c
      rw [hred, if_neg hc]
      refine ⟨h :: l₁, l₂, by rw [List.cons_append, ← hsplit], ?_, hafter⟩
      intro x hx
      rcases List.mem_cons.mp hx with rfl | hx'
      · exact Nat.le_trans (hmin c (by simp)) (Nat.le_of_not_lt hc)
      · exact hmin x hx'

/-- Eviction only ever removes entries, in place: the result is a
sublist of the store. -/
theorem evictOne_sublist {α : Type} [DecidableEq α] (nodes : List (CacheNode α)) :
    List.Sublist (evictOne nodes) nodes := by
  match nodes with
  | [] => exact List.nil_sublist []
  | hd :: t => exact List.erase_sublist _ _

/-- Eviction removes exactly one entry from a nonempty store. -/
theorem length_evictOne {α : Type} [DecidableEq α] (nodes : List (CacheNode α))
    (h : nodes ≠ []) : (evictOne nodes).length = nodes.length - 1 := by
  match nodes with
  | [] => exact absurd rfl h
  | hd :: t =>
    simp only [evictOne]
    rw [List.length_erase_of_mem (reduceMinNode_mem hd t)]

/-- `find?` by key fails exactly on stores not containing the key. -/
theorem find?_key_eq_none {α : Type} {k : String} {nodes : List (CacheNode α)}
    (habs : k ∉ storeKeys nodes) :
    nodes.find? (fun item => item.cacheKey == k) = none := by
  rw [List.find?_eq_none]
  intro x hx
  simp only [beq_iff_eq]
  intro hxk
  exact habs (hxk ▸ List.mem_map_of_mem (fun item => item.cacheKey) hx)

theorem key_not_mem_of_find?_none {α : Type} {k : String} {nodes : List (CacheNode α)}
    (h : nodes.find? (fun item => item.cacheKey == k) = none) : k ∉ storeKeys nodes := by
  intro hk
  rw [storeKeys, List.mem_map] at hk
  obtain ⟨x, hx, hxk⟩ := hk
  have := List.find?_eq_none.mp h x hx
  simp [hxk] at this

/-- The insert branch of the activation controller, unfolded. -/
theorem activate_of_not_found {α : Type} [DecidableEq α] {k : String} {c : α}
    {now maxN : Nat} {cfg : MaxAliveTime} {nodes : List (CacheNode α)}
    (h : nodes.find? (fun item => item.cacheKey == k) = none) :
    activate k c now maxN cfg nodes =
      (if nodes.length > maxN then evictOne nodes else nodes) ++
        [{ cacheKey := k, ele := c, lastActiveTime := now, renderCount := 0 }] := by
  simp only [activate, h]

/-- The insertion length law: eviction fires exactly when the
pre-insertion size strictly exceeds `max`, and then the net size is
unchanged; otherwise the size grows by one. -/
theorem activate_length_insert {α : Type} [DecidableEq α] (k : String) (c : α)
    (now maxN : Nat) (cfg : MaxAliveTime) (nodes : List (CacheNode α))
    (habs : k ∉ storeKeys nodes) :
    (activate k c now maxN cfg nodes).length =
      if nodes.length > maxN then nodes.length else nodes.length + 1 := by
  rw [activate_of_not_found (find?_key_eq_none habs)]
  by_cases hlen : nodes.length > maxN
  · have hne : nodes ≠ [] := by
      intro hnil
      rw [hnil] at hlen
      simp at hlen
    rw [if_pos hlen, if_pos hlen, List.length_append, length_evictOne nodes hne]
    simp only [List.length_singleton]
    omega
  · rw [if_neg hlen, if_neg hlen, List.length_append, List.length_singleton]

/-- The update branch leaves the key sequence unchanged. -/
theorem storeKeys_activate_found {α : Type} [DecidableEq α] {k : String} {c : α}
    {now maxN : Nat} {cfg : MaxAliveTime} {nodes : List (CacheNode α)} {e : CacheNode α}
    (h : nodes.find? (fun item => item.cacheKey == k) = some e) :
    storeKeys (activate k c now maxN cfg nodes) = storeKeys nodes := by
  simp only [activate, h, storeKeys, List.map_map]
  refine List.map_congr_left (fun x _ => ?_)
  simp only [Function.comp_apply]
  split <;> rfl

/-- Every key of the post-activation store is the activation key or a
key of the prior store. -/
theorem storeKeys_activate_subset {α : Type} [DecidableEq α] (k : String) (c : α)
    (now maxN : Nat) (cfg : MaxAliveTime) (nodes : List (CacheNode α)) :
    ∀ s ∈ storeKeys (activate k c now maxN cfg nodes), s = k ∨ s ∈ storeKeys nodes := by
  intro s hs
  rcases hfind : nodes.find? (fun item => item.cacheKey == k) with _ | e
  · rw [activate_of_not_found hfind] at hs
    simp only [storeKeys, List.map_append, List.mem_append] at hs
    rcases hs with hs | hs
    · right
      have hsub : List.Sublist (if nodes.length > maxN then evictOne nodes else nodes) nodes := by
        split
        · exact evictOne_sublist nodes
        · exact List.Sublist.refl nodes
      exact (hsub.map (fun item => item.cacheKey)).subset hs
    · left
      simpa using hs
  · rw [storeKeys_activate_found hfind] at hs
    exact Or.inr hs

/-- `refresh` never changes the key sequence. -/
theorem storeKeys_refresh {α : Type} (arg : Option String) (ak : String)
    (nodes : List (CacheNode α)) :
    storeKeys (refresh arg ak nodes) = storeKeys nodes := by
  simp only [refresh, storeKeys, List.map_map]
  refine List.map_congr_left (fun x _ => ?_)
  simp only [Function.comp_apply]
  split <;> rfl

/-! ### Claim theorems -/

/-- C4: the expiration evaluation returns `false` for a zero (falsy)
scalar configuration; for a nonzero scalar duration `d` it returns
`lastActiveTime + d*1000 < now`; for a rule list it applies the first
rule whose `match` tests the cache key the same way, and returns
`false` when no rule matches. -/
theorem C4_expiration_evaluator :
    (∀ p n k, shouldExpire p n (.num 0) k = false) ∧
    (∀ p n d k, d ≠ 0 → shouldExpire p n (.num d) k = decide (p + d * 1000 < n)) ∧
    (∀ p n k rs₁ rs₂ c, (∀ x ∈ rs₁, matchTest x.match_ k = false) →
      matchTest c.match_ k = true →
      shouldExpire p n (.rules (rs₁ ++ c :: rs₂)) k = decide (p + c.expire * 1000 < n)) ∧
    (∀ p n k rs, (∀ x ∈ rs, matchTest x.match_ k = false) →
      shouldExpire p n (.rules rs) k = false) :=
  ⟨shouldExpire_num_zero,
   fun p n d k hd => shouldExpire_num_pos p n d k hd,
   fun p n k rs₁ rs₂ c h₁ hc => shouldExpire_rules_first p n k rs₁ rs₂ c h₁ hc,
   fun p n k rs h => shouldExpire_rules_none p n k rs h⟩

theorem C4_expiration_evaluator_witness :
    ((2 : Nat) ≠ 0 ∧ shouldExpire 0 2001 (.num 2) "k" = decide (0 + 2 * 1000 < 2001)) ∧
    shouldExpire 0 9001 (.rules [⟨.str "a", 7⟩, ⟨.str "k", 9⟩]) "k" =
      decide (0 + 9 * 1000 < 9001) :=
  ⟨⟨by decide, C4_expiration_evaluator.2.1 0 2001 2 "k" (by decide)⟩,
   C4_expiration_evaluator.2.2.1 0 9001 "k" [⟨.str "a", 7⟩] [] ⟨.str "k", 9⟩
     (by intro x hx; simp only [List.mem_singleton] at hx; subst hx; rfl) rfl⟩

/-- C5 counterexample: a rule list whose first (and only) matching rule
has `expire = 0` does NOT disable expiration — at `lastActiveTime = 0`,
`now = 1` the evaluation returns `true`, because the source checks
truthiness of the rule object (`config && ...`), not of its `expire`
field. -/
theorem C5_zero_rule_counterexample :
    shouldExpire 0 1 (.rules [⟨.str "x", 0⟩]) "x" = true := rfl

/-- C5 (amended): a scalar duration of zero disables expiration
entirely, but a matched rule with `expire = 0` does not: there the
evaluation returns `lastActiveTime < now`. -/
theorem C5_zero_duration :
    (∀ p n k, shouldExpire p n (.num 0) k = false) ∧
    (∀ p n k rs₁ rs₂ c, (∀ x ∈ rs₁, matchTest x.match_ k = false) →
      matchTest c.match_ k = true → c.expire = 0 →
      shouldExpire p n (.rules (rs₁ ++ c :: rs₂)) k = decide (p < n)) := by
  refine ⟨shouldExpire_num_zero, fun p n k rs₁ rs₂ c h₁ hc hz => ?_⟩
  rw [shouldExpire_rules_first p n k rs₁ rs₂ c h₁ hc, hz]
  simp

theorem C5_zero_duration_witness :
    shouldExpire 3 5 (.rules [⟨.str "y", 0⟩]) "y" = decide (3 < 5) :=
  C5_zero_duration.2 3 5 "y" [] [] ⟨.str "y", 0⟩ (by intro x hx; simp at hx) rfl rfl

/-- C3: reactivating a key already present replaces the entry's
content with the new payload and sets its timestamp to `now`;
`renderCount` grows by exactly 1 when the expiration evaluation on the
entry's previous `lastActiveTime` is true and is unchanged otherwise;
every other entry is untouched.  In particular, with no TTL configured
(the scalar `0` default) the evaluation is constantly false, so
`renderCount` never changes. -/
theorem C3_update_branch {α : Type} [DecidableEq α] (l₁ l₂ : List (CacheNode α))
    (e : CacheNode α) (k : String) (children : α) (now maxN : Nat) (cfg : MaxAliveTime)
    (hk : e.cacheKey = k) (h₁ : ∀ x ∈ l₁, x.cacheKey ≠ k) (h₂ : ∀ x ∈ l₂, x.cacheKey ≠ k) :
    activate k children now maxN cfg (l₁ ++ e :: l₂) =
      l₁ ++ { e with
              ele := children
              lastActiveTime := now
              renderCount :=
                if shouldExpire e.lastActiveTime now cfg k then e.renderCount + 1
                else e.renderCount } :: l₂ ∧
    (∀ p n k', shouldExpire p n (.num 0) k' = false) := by
  refine ⟨?_, shouldExpire_num_zero⟩
  have hfind : (l₁ ++ e :: l₂).find? (fun item => item.cacheKey == k) = some e :=
    find?_first _ l₁ l₂ e (fun x hx => by simp [h₁ x hx]) (by simp [hk])
  simp only [activate, hfind, List.map_append, List.map_cons]
  rw [map_eq_self _ l₁ (fun x hx => by simp [h₁ x hx]),
      map_eq_self _ l₂ (fun x hx => by simp [h₂ x hx])]
  simp [hk]

theorem C3_update_branch_witness :
    (⟨"x", 1, 0, 0⟩ : CacheNode Nat).cacheKey = "x" ∧
    activate "x" (9 : Nat) 6000 10 (.rules [⟨.str "x", 5⟩]) [⟨"x", 1, 0, 0⟩, ⟨"a", 5, 2, 3⟩] =
      [⟨"x", 9, 6000,
        if shouldExpire 0 6000 (.rules [⟨.str "x", 5⟩]) "x" then 0 + 1 else 0⟩,
       ⟨"a", 5, 2, 3⟩] :=
  ⟨rfl,
   (C3_update_branch [] [⟨"a", 5, 2, 3⟩] ⟨"x", 1, 0, 0⟩ "x" 9 6000 10
      (.rules [⟨.str "x", 5⟩]) rfl (by intro x hx; cases hx)
      (by intro x hx; simp only [List.mem_singleton] at hx; subst hx; decide)).1⟩

/-- C8: `refresh(k)` with a nonempty key `k` bumps `renderCount` of
the entry keyed `k` by exactly 1, leaving its content and timestamp
and every other entry unchanged, and is the identity when no entry has
key `k`. -/
theorem C8_refresh {α : Type} (ak k : String) (hk : k ≠ "") :
    (∀ (l₁ l₂ : List (CacheNode α)) (e : CacheNode α), e.cacheKey = k →
      (∀ x ∈ l₁, x.cacheKey ≠ k) → (∀ x ∈ l₂, x.cacheKey ≠ k) →
      refresh (some k) ak (l₁ ++ e :: l₂) =
        l₁ ++ { e with renderCount := e.renderCount + 1 } :: l₂) ∧
    (∀ nodes : List (CacheNode α), k ∉ storeKeys nodes → refresh (some k) ak nodes = nodes) := by
  constructor
  · intro l₁ l₂ e he h₁ h₂
    simp only [refresh, hk, if_neg hk, List.map_append, List.map_cons]
    rw [map_eq_self _ l₁ (fun x hx => by simp [h₁ x hx]),
        map_eq_self _ l₂ (fun x hx => by simp [h₂ x hx])]
    simp [he]
  · intro nodes hnodes
    simp only [refresh, hk, if_neg hk]
    refine map_eq_self _ nodes (fun x hx => ?_)
    have : x.cacheKey ≠ k := fun hxk =>
      hnodes (hxk ▸ List.mem_map_of_mem (fun item => item.cacheKey) hx)
    simp [this]

theorem C8_refresh_witness :
    ("b" : String) ≠ "" ∧
    refresh (some "b") "ak" [(⟨"a", 0, 1, 0⟩ : CacheNode Nat), ⟨"b", 1, 2, 5⟩] =
      [⟨"a", 0, 1, 0⟩, ⟨"b", 1, 2, 5 + 1⟩] :=
  ⟨by decide,
   (C8_refresh "ak" "b" (by decide)).1 [⟨"a", 0, 1, 0⟩] [] ⟨"b", 1, 2, 5⟩ rfl
     (by intro x hx; simp only [List.mem_singleton] at hx; subst hx; decide)
     (by intro x hx; cases hx)⟩

/-- C6: after the deferred mutation of `destroy([a, b])` has run, the
store contains no entry keyed `a` or `b`, and every entry of the prior
store with any other key is still present, unchanged in all fields. -/
theorem C6_destroy {α : Type} (a b ak : String) (nodes : List (CacheNode α)) :
    (∀ e ∈ destroy (.keys [a, b]) ak nodes, e.cacheKey ≠ a ∧ e.cacheKey ≠ b) ∧
    (∀ e ∈ nodes, e.cacheKey ≠ a → e.cacheKey ≠ b →
      e ∈ destroy (.keys [a, b]) ak nodes) := by
  constructor
  · intro e he
    rw [destroy, List.mem_filter] at he
    have := he.2
    simp only [destroyTargets] at this
    simpa using this
  · intro e he ha hb
    rw [destroy, List.mem_filter]
    refine ⟨he, ?_⟩
    simp only [destroyTargets]
    simp [ha, hb]

theorem C6_destroy_witness :
    (⟨"c", 7, 2, 0⟩ : CacheNode Nat) ∈
      destroy (.keys ["a", "b"]) "ak" [⟨"a", 0, 1, 0⟩, ⟨"c", 7, 2, 0⟩, ⟨"b", 1, 3, 0⟩] :=
  (C6_destroy "a" "b" "ak" [⟨"a", 0, 1, 0⟩, ⟨"c", 7, 2, 0⟩, ⟨"b", 1, 3, 0⟩]).2
    ⟨"c", 7, 2, 0⟩ (by simp) (by decide) (by decide)

/-- C7: after the deferred mutation of `destroyOther(k)` (for a
nonempty key `k`, over a store with pairwise-distinct keys) has run,
the store is exactly `[e]` when some entry `e` had key `k`, and empty
when no entry had key `k`. -/
theorem C7_destroyOther {α : Type} (k ak : String) (hk : k ≠ "")
    (nodes : List (CacheNode α)) (hnd : (storeKeys nodes).Nodup) :
    (∀ e ∈ nodes, e.cacheKey = k → destroyOther (some k) ak nodes = [e]) ∧
    (k ∉ storeKeys nodes → destroyOther (some k) ak nodes = []) := by
  constructor
  · intro e he hek
    simp only [destroyOther, if_neg hk]
    exact filter_key_unique k nodes hnd e he hek
  · intro habs
    simp only [destroyOther, if_neg hk]
    rw [List.filter_eq_nil_iff]
    intro x hx hxk
    simp only [beq_iff_eq] at hxk
    exact habs (hxk ▸ List.mem_map_of_mem (fun item => item.cacheKey) hx)

theorem C7_destroyOther_witness :
    ("b" : String) ≠ "" ∧
    destroyOther (some "b") "ak" [(⟨"a", 0, 1, 0⟩ : CacheNode Nat), ⟨"b", 1, 2, 0⟩] =
      [⟨"b", 1, 2, 0⟩] :=
  ⟨by decide,
   (C7_destroyOther "b" "ak" (by decide) [⟨"a", 0, 1, 0⟩, ⟨"b", 1, 2, 0⟩] (by decide)).1
     ⟨"b", 1, 2, 0⟩ (by simp) rfl⟩

/-- C10: the empty string is falsy in the `cacheKey || activeCacheKey`
fallback, so `refresh("")`, `destroy("")` and `destroyOther("")` behave
exactly like the no-argument calls targeting the active key; `destroy([])`
with an empty key list, by contrast, keeps the (truthy) empty array as
target set and removes nothing. -/
theorem C10_empty_key_fallback {α : Type} (ak : String) (nodes : List (CacheNode α)) :
    refresh (some "") ak nodes = refresh Option.none ak nodes ∧
    destroy (.key "") ak nodes = destroy .none ak nodes ∧
    destroyOther (some "") ak nodes = destroyOther Option.none ak nodes ∧
    destroy (.keys []) ak nodes = nodes := by
  refine ⟨rfl, rfl, rfl, ?_⟩
  simp only [destroy, destroyTargets]
  refine List.filter_eq_self.mpr (fun x _ => ?_)
  rfl

/-- In a store with pairwise-distinct keys, the entry at a split point
does not also occur in the prefix. -/
theorem not_mem_left_of_keys_nodup {α : Type} (l₁ l₂ : List (CacheNode α)) (m : CacheNode α)
    (hnd : (storeKeys (l₁ ++ m :: l₂)).Nodup) : m ∉ l₁ := by
  intro hm
  simp only [storeKeys, List.map_append, List.map_cons] at hnd
  rw [List.nodup_append] at hnd
  exact hnd.2.2 (List.mem_map_of_mem (fun item => item.cacheKey) hm) (by simp)

/-- C2 counterexample to the tie-break direction: two entries share
the minimal `lastActiveTime = 5`; the claim predicts the first
(`"a"`) is evicted, but the code keeps `"a"` and evicts `"b"` — the
reduce's ternary keeps `cur` on ties, so the LAST minimal entry is
picked. -/
theorem C2_tiebreak_counterexample :
    activate "c" (2 : Nat) 10 1 (.num 0) [⟨"a", 0, 5, 0⟩, ⟨"b", 1, 5, 0⟩] =
      [⟨"a", 0, 5, 0⟩, ⟨"c", 2, 10, 0⟩] ∧
    (⟨"b", 1, 5, 0⟩ : CacheNode Nat) ∉
      activate "c" (2 : Nat) 10 1 (.num 0) [⟨"a", 0, 5, 0⟩, ⟨"b", 1, 5, 0⟩] := by
  constructor
  · rfl
  · decide

/-- C2 (amended): whenever eviction runs (unseen key, pre-insertion
size strictly greater than `max`, pairwise-distinct keys), exactly one
entry is removed: an entry with the smallest `lastActiveTime`, and
when several share the smallest `lastActiveTime` the one encountered
LAST in iteration order (every entry after the evicted one is strictly
younger); the fresh entry is then appended. -/
theorem C2_eviction {α : Type} [DecidableEq α] (k : String) (c : α) (now maxN : Nat)
    (cfg : MaxAliveTime) (nodes : List (CacheNode α))
    (hnd : (storeKeys nodes).Nodup) (habs : k ∉ storeKeys nodes)
    (hlen : nodes.length > maxN) :
    ∃ l₁ m l₂, nodes = l₁ ++ m :: l₂ ∧
      activate k c now maxN cfg nodes =
        (l₁ ++ l₂) ++ [{ cacheKey := k, ele := c, lastActiveTime := now, renderCount := 0 }] ∧
      (∀ x ∈ nodes, m.lastActiveTime ≤ x.lastActiveTime) ∧
      (∀ x ∈ l₂, m.lastActiveTime < x.lastActiveTime) := by
  cases nodes with
  | nil => simp at hlen
  | cons hd t =>
    obtain ⟨l₁, l₂, hsplit, hmin, hafter⟩ := reduceMinNode_split hd t
    refine ⟨l₁, reduceMinNode hd t, l₂, hsplit, ?_, hmin, hafter⟩
    rw [activate_of_not_found (find?_key_eq_none habs), if_pos hlen]
    congr 1
    simp only [evictOne]
    have hm : reduceMinNode hd t ∉ l₁ :=
      not_mem_left_of_keys_nodup l₁ l₂ _ (by rw [← hsplit]; exact hnd)
    rw [hsplit, List.erase_append_right _ hm, List.erase_cons_head]

theorem C2_eviction_witness :
    (storeKeys [(⟨"a", 0, 5, 0⟩ : CacheNode Nat), ⟨"b", 1, 3, 0⟩]).Nodup ∧
    "c" ∉ storeKeys [(⟨"a", 0, 5, 0⟩ : CacheNode Nat), ⟨"b", 1, 3, 0⟩] ∧
    (∃ l₁ m l₂,
      [(⟨"a", 0, 5, 0⟩ : CacheNode Nat), ⟨"b", 1, 3, 0⟩] = l₁ ++ m :: l₂ ∧
      activate "c" (7 : Nat) 10 1 (.num 0) [⟨"a", 0, 5, 0⟩, ⟨"b", 1, 3, 0⟩] =
        (l₁ ++ l₂) ++ [{ cacheKey := "c", ele := 7, lastActiveTime := 10, renderCount := 0 }] ∧
      (∀ x ∈ [(⟨"a", 0, 5, 0⟩ : CacheNode Nat), ⟨"b", 1, 3, 0⟩],
        m.lastActiveTime ≤ x.lastActiveTime) ∧
      (∀ x ∈ l₂, m.lastActiveTime < x.lastActiveTime)) :=
  ⟨by decide, by decide,
   C2_eviction "c" 7 10 1 (.num 0) [⟨"a", 0, 5, 0⟩, ⟨"b", 1, 3, 0⟩]
     (by decide) (by decide) (by decide)⟩

/-- Keys reachable by a sequence of activations from the empty store
are among the activated keys. -/
theorem storeKeys_activateSeq_subset {α : Type} [DecidableEq α] (maxN : Nat)
    (cfg : MaxAliveTime) (steps : List (String × α × Nat)) :
    ∀ s ∈ storeKeys (activateSeq maxN cfg steps ([] : List (CacheNode α))),
      s ∈ steps.map (fun st => st.1) := by
  induction steps using List.reverseRecOn with
  | nil => simp [activateSeq, storeKeys]
  | append_singleton steps st ih =>
    intro s hs
    simp only [activateSeq, List.foldl_append, List.foldl_cons, List.foldl_nil] at hs
    rcases storeKeys_activate_subset st.1 st.2.1 st.2.2 maxN cfg _ s hs with rfl | hmem
    · simp
    · simp only [activateSeq] at ih
      simp only [List.map_append, List.mem_append]
      exact Or.inl (ih s hmem)

/-- The size of the store after a sequence of activations with
pairwise-distinct keys, starting empty: it grows one per step up to
`N + 1` and stays there — it never drops back to `N`. -/
theorem activateSeq_length {α : Type} [DecidableEq α] (N : Nat) (cfg : MaxAliveTime)
    (steps : List (String × α × Nat)) :
    (steps.map (fun st => st.1)).Nodup →
    (activateSeq N cfg steps ([] : List (CacheNode α))).length = min steps.length (N + 1) := by
  induction steps using List.reverseRecOn with
  | nil =>
    intro _
    simp [activateSeq]
  | append_singleton steps st ih =>
    intro hnd
    simp only [List.map_append, List.map_cons, List.map_nil] at hnd
    rw [List.nodup_append] at hnd
    have hst : st.1 ∉ steps.map (fun s => s.1) := fun hmem => hnd.2.2 hmem (by simp)
    have habs : st.1 ∉ storeKeys (activateSeq N cfg steps ([] : List (CacheNode α))) :=
      fun hmem => hst (storeKeys_activateSeq_subset N cfg steps st.1 hmem)
    simp only [activateSeq, List.foldl_append, List.foldl_cons, List.foldl_nil]
    simp only [activateSeq] at habs ih
    rw [activate_length_insert st.1 st.2.1 st.2.2 N cfg _ habs, ih hnd.1,
      List.length_append, List.length_singleton]
    simp only [Nat.min_def]
    split_ifs <;> omega

/-- C1: eviction on insertion of an unseen key fires exactly when the
pre-insertion size strictly exceeds `N` (leaving the size unchanged,
else growing it by one); consequently a sequence of activations with
pairwise-distinct keys from the empty store reaches size
`min (number of steps) (N + 1)` — once past `N`, the store holds
exactly `N + 1` entries forever. -/
theorem C1_capacity {α : Type} [DecidableEq α] (N : Nat) (cfg : MaxAliveTime)
    (steps : List (String × α × Nat)) (hnd : (steps.map (fun st => st.1)).Nodup) :
    (∀ (k : String) (c : α) (now : Nat) (nodes : List (CacheNode α)), k ∉ storeKeys nodes →
      (activate k c now N cfg nodes).length =
        if nodes.length > N then nodes.length else nodes.length + 1) ∧
    (activateSeq N cfg steps ([] : List (CacheNode α))).length = min steps.length (N + 1) :=
  ⟨fun k c now nodes habs => activate_length_insert k c now N cfg nodes habs,
   activateSeq_length N cfg steps hnd⟩

theorem C1_capacity_witness :
    ([("a", (0 : Nat), 1), ("b", 0, 2), ("c", 0, 3), ("d", 0, 4)].map
      (fun st => st.1)).Nodup ∧
    (activateSeq 2 (.num 0) [("a", (0 : Nat), 1), ("b", 0, 2), ("c", 0, 3), ("d", 0, 4)]
      ([] : List (CacheNode Nat))).length = min 4 (2 + 1) :=
  ⟨by decide,
   (C1_capacity 2 (.num 0) [("a", 0, 1), ("b", 0, 2), ("c", 0, 3), ("d", 0, 4)]
     (by decide)).2⟩

/-- Filtering a store preserves distinctness of keys. -/
theorem storeKeys_filter_nodup {α : Type} (p : CacheNode α → Bool)
    (nodes : List (CacheNode α)) (hnd : (storeKeys nodes).Nodup) :
    (storeKeys (nodes.filter p)).Nodup := by
  have h := (List.filter_sublist (p := p) nodes).map (fun item => item.cacheKey)
  exact hnd.sublist h

/-- C9: starting from a store with pairwise-distinct keys, every
operation — activation (update or insert with eviction), refresh,
destroy, destroyAll and destroyOther — yields a store with
pairwise-distinct keys. -/
theorem C9_key_uniqueness {α : Type} [DecidableEq α] :
    (∀ (k : String) (c : α) (now maxN : Nat) (cfg : MaxAliveTime)
      (nodes : List (CacheNode α)), (storeKeys nodes).Nodup →
      (storeKeys (activate k c now maxN cfg nodes)).Nodup) ∧
    (∀ (arg : Option String) (ak : String) (nodes : List (CacheNode α)),
      (storeKeys nodes).Nodup → (storeKeys (refresh arg ak nodes)).Nodup) ∧
    (∀ (arg : DestroyArg) (ak : String) (nodes : List (CacheNode α)),
      (storeKeys nodes).Nodup → (storeKeys (destroy arg ak nodes)).Nodup) ∧
    (∀ nodes : List (CacheNode α), (storeKeys (destroyAll nodes)).Nodup) ∧
    (∀ (arg : Option String) (ak : String) (nodes : List (CacheNode α)),
      (storeKeys nodes).Nodup → (storeKeys (destroyOther arg ak nodes)).Nodup) := by
  refine ⟨?_, ?_, ?_, ?_, ?_⟩
  · intro k c now maxN cfg nodes hnd
    rcases hfind : nodes.find? (fun item => item.cacheKey == k) with _ | e
    · rw [activate_of_not_found hfind]
      have habs := key_not_mem_of_find?_none hfind
      have hsub : List.Sublist (if nodes.length > maxN then evictOne nodes else nodes) nodes := by
        split
        · exact evictOne_sublist nodes
        · exact List.Sublist.refl nodes
      have hkeysub := hsub.map (fun item => item.cacheKey)
      simp only [storeKeys, List.map_append, List.map_cons, List.map_nil]
      rw [List.nodup_append]
      refine ⟨hnd.sublist hkeysub, List.nodup_singleton _, ?_⟩
      intro s hs hs'
      simp only [List.mem_singleton] at hs'
      exact habs (hs' ▸ hkeysub.subset hs)
    · rw [storeKeys_activate_found hfind]
      exact hnd
  · intro arg ak nodes hnd
    rw [storeKeys_refresh]
    exact hnd
  · intro arg ak nodes hnd
    exact storeKeys_filter_nodup _ nodes hnd
  · intro nodes
    exact List.nodup_nil
  · intro arg ak nodes hnd
    exact storeKeys_filter_nodup _ nodes hnd

theorem C9_key_uniqueness_witness :
    (storeKeys [(⟨"a", 0, 1, 0⟩ : CacheNode Nat), ⟨"b", 1, 2, 0⟩]).Nodup ∧
    (storeKeys (activate "c" (0 : Nat) 5 1 (.num 0)
      [(⟨"a", 0, 1, 0⟩ : CacheNode Nat), ⟨"b", 1, 2, 0⟩])).Nodup :=
  ⟨by decide,
   C9_key_uniqueness.1 "c" 0 5 1 (.num 0) [⟨"a", 0, 1, 0⟩, ⟨"b", 1, 2, 0⟩] (by decide)⟩

end KeepAlive
